import Mathlib

set_option autoImplicit false

/-
  Verification development for the xcb-util-xrm resource database.

  The definitions below are a shallow embedding of the C sources:
  - src/resource.c : xcb_xrm_resource_get_string / __resource_get
  - src/match.c    : xcb_xrm_match / __match_matches / __match_compare
  Databases are lists of entries (the TAILQ in the C code), strings are
  Lean strings, and the per-position match flags are a record of booleans
  mirroring the MF_* bit set.
-/

namespace Xrm

/-- Binding preceding a component: tight (BT_TIGHT, written as a dot) or
loose (BT_LOOSE, written as an asterisk). -/
inductive BindingType where
  | tight
  | loose
  deriving DecidableEq, Repr

/-- Kind of a component: a normal name (CT_NORMAL, with its name string) or
the single-component wildcard (CT_WILDCARD). -/
inductive ComponentType where
  | normal (name : String)
  | wildcard
  deriving DecidableEq, Repr

/-- One component of a resource specifier: its binding and its kind, as in
xcb_xrm_component_t. -/
structure Component where
  binding_type : BindingType
  type : ComponentType
  deriving DecidableEq, Repr

/-- One database entry: components plus the (already unescaped) value, as in
xcb_xrm_entry_t. -/
structure Entry where
  components : List Component
  value : String
  deriving DecidableEq, Repr

/-- The per-position match flags MF_NAME, MF_CLASS, MF_WILDCARD, MF_SKIPPED
and MF_PRECEDING_LOOSE of the C bit set, one boolean per flag. -/
structure MatchFlags where
  name : Bool
  mclass : Bool
  wildcard : Bool
  skipped : Bool
  precedingLoose : Bool
  deriving DecidableEq, Repr

/-- The empty flag set (the calloc-initialised state of a flags cell). -/
def MatchFlags.none0 : MatchFlags := ⟨false, false, false, false, false⟩

/-- State of the alignment loop of __match_matches at loop exit: the flags
recorded so far and the unconsumed remainders of the query name components,
the database entry components and the query class components. -/
structure AlignState where
  flags : List MatchFlags
  restName : List String
  restDb : List Component
  restClass : Option (List String)
  deriving DecidableEq, Repr

/-- Prepend a freshly recorded flags cell to an alignment state. -/
def pushFlag (f : MatchFlags) (st : AlignState) : AlignState :=
  ⟨f :: st.flags, st.restName, st.restDb, st.restClass⟩

/-- The while loop of __match_matches (src/match.c). It walks the database
entry components against the query name (and optional class) components,
recording one MatchFlags cell per consumed query position. The loop runs
while the query name, the database components and (when a class is used) the
class components are all non-empty; a tight-binding mismatch aborts with
failure (Option.none); otherwise the residual state at loop exit is
returned. Flags per position mirror the C exactly: the cell starts as
MF_PRECEDING_LOOSE when the current database component has a loose binding,
then MF_NAME / MF_CLASS / MF_WILDCARD is or-ed in, or, for a loose skip,
MF_PRECEDING_LOOSE is cleared again and MF_SKIPPED is or-ed in. -/
def alignLoop : List String → List Component → Option (List String) → Option AlignState
  | [], db, qc => some ⟨[], [], db, qc⟩
  | n :: ns, [], qc => some ⟨[], n :: ns, [], qc⟩
  | n :: ns, d :: ds, some [] => some ⟨[], n :: ns, d :: ds, some []⟩
  | n :: ns, d :: ds, none =>
    let base : MatchFlags :=
      if d.binding_type = BindingType.loose then
        { MatchFlags.none0 with precedingLoose := true }
      else MatchFlags.none0
    match d.type with
    | ComponentType.normal nm =>
      if nm = n then
        Option.map (pushFlag { base with name := true }) (alignLoop ns ds none)
      else if d.binding_type = BindingType.tight then
        none
      else
        Option.map (pushFlag { base with precedingLoose := false, skipped := true })
          (alignLoop ns (d :: ds) none)
    | ComponentType.wildcard =>
      Option.map (pushFlag { base with wildcard := true }) (alignLoop ns ds none)
  | n :: ns, d :: ds, some (c :: cs) =>
    let base : MatchFlags :=
      if d.binding_type = BindingType.loose then
        { MatchFlags.none0 with precedingLoose := true }
      else MatchFlags.none0
    match d.type with
    | ComponentType.normal nm =>
      if nm = n then
        Option.map (pushFlag { base with name := true }) (alignLoop ns ds (some cs))
      else if nm = c then
        Option.map (pushFlag { base with mclass := true }) (alignLoop ns ds (some cs))
      else if d.binding_type = BindingType.tight then
        none
      else
        Option.map (pushFlag { base with precedingLoose := false, skipped := true })
          (alignLoop ns (d :: ds) (some cs))
    | ComponentType.wildcard =>
      Option.map (pushFlag { base with wildcard := true }) (alignLoop ns ds (some cs))

/-- The function __match_matches (src/match.c): run the alignment loop, then
succeed with the recorded flags exactly when the database components and the
query name components are fully consumed and, when a class query is used,
its components are fully consumed as well. -/
def __match_matches (db_entry : Entry) (query_name : List String)
    (query_class : Option (List String)) : Option (List MatchFlags) :=
  match alignLoop query_name db_entry.components query_class with
  | none => none
  | some st =>
    if st.restDb = [] ∧ st.restName = [] ∧
        (st.restClass = none ∨ st.restClass = some []) then
      some st.flags
    else
      none

/-- The loop body conditions of __match_compare (src/match.c): the four
checks under which the candidate match is declared better than the current
best at one position (each a return SUCCESS in the C code). -/
def favorsCandidate (mt_best mt_candidate : MatchFlags) : Bool :=
  (mt_best.skipped && (mt_candidate.name || mt_candidate.mclass || mt_candidate.wildcard)) ||
  ((mt_best.mclass || mt_best.wildcard) && mt_candidate.name) ||
  (mt_best.wildcard && mt_candidate.mclass) ||
  (mt_best.precedingLoose && !mt_candidate.precedingLoose)

/-- The function __match_compare (src/match.c): scan the two match records
position by position and report true (the C return value SUCCESS, meaning
the candidate replaces the best) as soon as one of the four candidate-favouring
conditions holds, false (-FAILURE, the best is retained) otherwise. -/
def __match_compare : List MatchFlags → List MatchFlags → Bool
  | b :: bs, c :: cs => favorsCandidate b c || __match_compare bs cs
  | _, _ => false

/-- The entry loop of xcb_xrm_match (src/match.c): walk the database in
order; the first matching entry becomes the best match, and a later matching
entry replaces it exactly when __match_compare reports the candidate as
better. -/
def xrmMatchLoop (query_name : List String) (query_class : Option (List String)) :
    List Entry → Option (List MatchFlags × Entry) → Option (List MatchFlags × Entry)
  | [], best => best
  | e :: rest, best =>
    match __match_matches e query_name query_class with
    | none => xrmMatchLoop query_name query_class rest best
    | some flags =>
      match best with
      | none => xrmMatchLoop query_name query_class rest (some (flags, e))
      | some (bf, be) =>
        if __match_compare bf flags then
          xrmMatchLoop query_name query_class rest (some (flags, e))
        else
          xrmMatchLoop query_name query_class rest (some (bf, be))

/-- The function xcb_xrm_match (src/match.c): run the entry loop over the
database and return the value of the best matching entry, or failure when no
entry matched. -/
def xcb_xrm_match (database : List Entry) (query_name : List String)
    (query_class : Option (List String)) : Option String :=
  match xrmMatchLoop query_name query_class database none with
  | none => none
  | some (_, e) => some e.value

/-- Modelled from the spec: the characters a component name may consist of,
per the grammar of section 4.1 of the spec ([A-Za-z0-9_-]); the entry
lexer (entry.c) is not part of src/. -/
def isComponentChar (c : Char) : Bool :=
  c.isAlphanum || c = '_' || c = '-'

/-- Split a character list at every dot; auxiliary for the modelled query
parser. -/
def splitDots : List Char → List (List Char)
  | [] => [[]]
  | c :: rest =>
    if c = '.' then [] :: splitDots rest
    else
      match splitDots rest with
      | s :: ss => (c :: s) :: ss
      | [] => [[c]]

/-- Modelled from the spec: the query parser, i.e. xcb_xrm_entry_parse with
resource_only set (entry.c is not part of src/). Per sections 4.1 and 4.4 of
the spec it parses a dotted component string into normal name components and
fails on an empty string, empty inter-dot segments, wildcards, or any other
illegal character (hence also on loose bindings, since the asterisk is not a
component character). -/
def xcb_xrm_entry_parse_query (s : String) : Option (List String) :=
  if s.data = [] then none
  else
    let segs := splitDots s.data
    if segs.all (fun seg => !seg.isEmpty && seg.all isComponentChar) then
      some (segs.map (fun seg => String.mk seg))
    else none

/-- The lookup __resource_get together with its wrapper
xcb_xrm_resource_get_string (src/resource.c). The query parser it calls is
modelled from the spec (entry.c is not part of src/); everything else is a
direct translation: an empty database fails; an absent or unparsable name
fails; a present, non-empty class string that does not parse fails; a parsed
class whose component count differs from the name's fails; otherwise the
matcher decides. A NULL or empty class string is accepted as a placeholder
for not specifying the class. -/
def xcb_xrm_resource_get_string (database : List Entry) (res_name : Option String)
    (res_class : Option String) : Option String :=
  if database = [] then none
  else
    match res_name with
    | none => none
    | some sn =>
      match xcb_xrm_entry_parse_query sn with
      | none => none
      | some query_name =>
        match res_class with
        | none => xcb_xrm_match database query_name none
        | some sc =>
          if 0 < sc.length then
            match xcb_xrm_entry_parse_query sc with
            | none => none
            | some query_class =>
              if query_name.length ≠ query_class.length then none
              else xcb_xrm_match database query_name (some query_class)
          else xcb_xrm_match database query_name none

/-- Value of a digit string in base 10; auxiliary for the modelled integer
conversion. -/
def digitsVal (ds : List Char) : Int :=
  ds.foldl (fun acc c => acc * 10 + ((c.toNat : Int) - ('0'.toNat : Int))) 0

/-- Modelled from the spec: signed base-10 integer parsing with full-string
consumption (section 6 of the spec; convert.c is not part of src/). -/
def parseLong (s : String) : Option Int :=
  match s.data with
  | [] => none
  | '-' :: ds =>
    if !ds.isEmpty && ds.all Char.isDigit then some (-(digitsVal ds)) else none
  | '+' :: ds =>
    if !ds.isEmpty && ds.all Char.isDigit then some (digitsVal ds) else none
  | ds =>
    if ds.all Char.isDigit then some (digitsVal ds) else none

/-- LONG_MIN of the C library on an LP64 platform, the sentinel returned by
xcb_xrm_convert_to_long for absent or unconvertible values. -/
def LONG_MIN : Int := -(2 ^ 63)

/-- Modelled from the spec: xcb_xrm_convert_to_long (convert.c is not part
of src/), per its documentation in include/xcb_xrm.h: if the value is
absent or cannot be converted to a long, LONG_MIN is returned. -/
def xcb_xrm_convert_to_long (value : Option String) : Int :=
  match value with
  | none => LONG_MIN
  | some s =>
    match parseLong s with
    | none => LONG_MIN
    | some n => n

/-- ASCII lowercasing of a string, character by character; auxiliary for the
modelled case-insensitive comparisons. -/
def lowercase (s : String) : String :=
  String.mk (s.data.map Char.toLower)

/-- Modelled from the spec: xcb_xrm_convert_to_bool (convert.c is not part
of src/), per its documentation in include/xcb_xrm.h, steps applied in this
order: an absent value yields false; a value convertible to a long yields
the truthiness of that number; a case-insensitive match of true / on / yes
yields true; a case-insensitive match of false / off / no yields false;
anything else yields false. -/
def xcb_xrm_convert_to_bool (value : Option String) : Bool :=
  match value with
  | none => false
  | some s =>
    match parseLong s with
    | some n => n != 0
    | none =>
      let l := lowercase s
      if l = "true" || l = "on" || l = "yes" then true
      else if l = "false" || l = "off" || l = "no" then false
      else false


/-! ### Structural lemmas about the alignment loop -/

/-- A flags cell as produced by one iteration of the alignment loop. -/
def flagShape (f : MatchFlags) : Prop :=
  f = { MatchFlags.none0 with name := true } ∨
  f = { MatchFlags.none0 with name := true, precedingLoose := true } ∨
  f = { MatchFlags.none0 with mclass := true } ∨
  f = { MatchFlags.none0 with mclass := true, precedingLoose := true } ∨
  f = { MatchFlags.none0 with wildcard := true } ∨
  f = { MatchFlags.none0 with wildcard := true, precedingLoose := true } ∨
  f = { MatchFlags.none0 with skipped := true }

theorem alignLoop_flags_shape (qn : List String) :
    ∀ (db : List Component) (qc : Option (List String)) (st : AlignState),
      alignLoop qn db qc = some st → ∀ f ∈ st.flags, flagShape f := by
  induction qn with
  | nil =>
    intro db qc st h f hf
    simp only [alignLoop, Option.some.injEq] at h
    subst h
    simp at hf
  | cons n ns ih =>
    intro db qc st h f hf
    rcases db with _ | ⟨⟨bt, dt⟩, ds⟩
    · simp only [alignLoop, Option.some.injEq] at h
      subst h
      simp at hf
    · rcases qc with _ | ⟨_ | ⟨c, cs⟩⟩
      · -- qc = none
        cases dt with
        | normal nm =>
          cases bt <;>
            simp only [alignLoop] at h <;>
            split_ifs at h <;>
            first
            | (rcases Option.map_eq_some'.mp h with ⟨st', hst', rfl⟩
               rcases List.mem_cons.mp hf with rfl | hf'
               · simp [flagShape, pushFlag, MatchFlags.none0]
               · exact ih _ _ _ hst' f hf')
            | cases h
        | wildcard =>
          cases bt <;>
            simp only [alignLoop] at h <;>
            (rcases Option.map_eq_some'.mp h with ⟨st', hst', rfl⟩
             rcases List.mem_cons.mp hf with rfl | hf'
             · simp [flagShape, pushFlag, MatchFlags.none0]
             · exact ih _ _ _ hst' f hf')
      · -- qc = some []
        simp only [alignLoop, Option.some.injEq] at h
        subst h
        simp at hf
      · -- qc = some (c :: cs)
        cases dt with
        | normal nm =>
          cases bt <;>
            simp only [alignLoop] at h <;>
            split_ifs at h <;>
            first
            | (rcases Option.map_eq_some'.mp h with ⟨st', hst', rfl⟩
               rcases List.mem_cons.mp hf with rfl | hf'
               · simp [flagShape, pushFlag, MatchFlags.none0]
               · exact ih _ _ _ hst' f hf')
            | cases h
        | wildcard =>
          cases bt <;>
            simp only [alignLoop] at h <;>
            (rcases Option.map_eq_some'.mp h with ⟨st', hst', rfl⟩
             rcases List.mem_cons.mp hf with rfl | hf'
             · simp [flagShape, pushFlag, MatchFlags.none0]
             · exact ih _ _ _ hst' f hf')

theorem alignLoop_length (qn : List String) :
    ∀ (db : List Component) (qc : Option (List String)) (st : AlignState),
      alignLoop qn db qc = some st →
      st.flags.length + st.restName.length = qn.length := by
  induction qn with
  | nil =>
    intro db qc st h
    simp only [alignLoop, Option.some.injEq] at h
    subst h; simp
  | cons n ns ih =>
    intro db qc st h
    rcases db with _ | ⟨⟨bt, dt⟩, ds⟩
    · simp only [alignLoop, Option.some.injEq] at h
      subst h; simp
    · rcases qc with _ | ⟨_ | ⟨c, cs⟩⟩
      · cases dt with
        | normal nm =>
          cases bt <;>
            simp only [alignLoop] at h <;>
            split_ifs at h <;>
            (rcases Option.map_eq_some'.mp h with ⟨st', hst', rfl⟩
             have := ih _ _ _ hst'
             simp [pushFlag] at this ⊢
             omega)
        | wildcard =>
          cases bt <;>
            simp only [alignLoop] at h <;>
            (rcases Option.map_eq_some'.mp h with ⟨st', hst', rfl⟩
             have := ih _ _ _ hst'
             simp [pushFlag] at this ⊢
             omega)
      · simp only [alignLoop, Option.some.injEq] at h
        subst h; simp
      · cases dt with
        | normal nm =>
          cases bt <;>
            simp only [alignLoop] at h <;>
            split_ifs at h <;>
            (rcases Option.map_eq_some'.mp h with ⟨st', hst', rfl⟩
             have := ih _ _ _ hst'
             simp [pushFlag] at this ⊢
             omega)
        | wildcard =>
          cases bt <;>
            simp only [alignLoop] at h <;>
            (rcases Option.map_eq_some'.mp h with ⟨st', hst', rfl⟩
             have := ih _ _ _ hst'
             simp [pushFlag] at this ⊢
             omega)

theorem alignLoop_class_none (qn : List String) :
    ∀ (db : List Component) (st : AlignState),
      alignLoop qn db none = some st → st.restClass = none := by
  induction qn with
  | nil =>
    intro db st h
    simp only [alignLoop, Option.some.injEq] at h
    subst h; rfl
  | cons n ns ih =>
    intro db st h
    rcases db with _ | ⟨⟨bt, dt⟩, ds⟩
    · simp only [alignLoop, Option.some.injEq] at h
      subst h; rfl
    · cases dt with
      | normal nm =>
        cases bt <;>
          simp only [alignLoop] at h <;>
          split_ifs at h <;>
          (rcases Option.map_eq_some'.mp h with ⟨st', hst', rfl⟩
           simpa [pushFlag] using ih _ _ hst')
      | wildcard =>
        cases bt <;>
          simp only [alignLoop] at h <;>
          (rcases Option.map_eq_some'.mp h with ⟨st', hst', rfl⟩
           simpa [pushFlag] using ih _ _ hst')

theorem alignLoop_class_some (qn : List String) :
    ∀ (db : List Component) (l : List String) (st : AlignState),
      alignLoop qn db (some l) = some st →
      ∃ l', st.restClass = some l' ∧
        st.restName.length + l.length = l'.length + qn.length := by
  induction qn with
  | nil =>
    intro db l st h
    simp only [alignLoop, Option.some.injEq] at h
    subst h; exact ⟨l, rfl, by simp⟩
  | cons n ns ih =>
    intro db l st h
    rcases db with _ | ⟨⟨bt, dt⟩, ds⟩
    · simp only [alignLoop, Option.some.injEq] at h
      subst h; exact ⟨l, rfl, by simp [Nat.add_comm]⟩
    · rcases l with _ | ⟨c, cs⟩
      · simp only [alignLoop, Option.some.injEq] at h
        subst h; exact ⟨[], rfl, by simp [Nat.add_comm]⟩
      · cases dt with
        | normal nm =>
          cases bt <;>
            simp only [alignLoop] at h <;>
            split_ifs at h <;>
            (rcases Option.map_eq_some'.mp h with ⟨st', hst', rfl⟩
             obtain ⟨l', hl', hlen⟩ := ih _ _ _ hst'
             exact ⟨l', hl', by simp [pushFlag] at hl' hlen ⊢; omega⟩)
        | wildcard =>
          cases bt <;>
            simp only [alignLoop] at h <;>
            (rcases Option.map_eq_some'.mp h with ⟨st', hst', rfl⟩
             obtain ⟨l', hl', hlen⟩ := ih _ _ _ hst'
             exact ⟨l', hl', by simp [pushFlag] at hl' hlen ⊢; omega⟩)


theorem __match_matches_eq_some {e : Entry} {qn : List String}
    {qc : Option (List String)} {flags : List MatchFlags} :
    __match_matches e qn qc = some flags ↔
      ∃ st, alignLoop qn e.components qc = some st ∧ st.restDb = [] ∧
        st.restName = [] ∧ (st.restClass = none ∨ st.restClass = some []) ∧
        flags = st.flags := by
  cases h : alignLoop qn e.components qc with
  | none => simp [__match_matches, h]
  | some st =>
    simp only [__match_matches, h]
    split_ifs with hcond
    · obtain ⟨h1, h2, h3⟩ := hcond
      constructor
      · intro hs
        exact ⟨st, rfl, h1, h2, h3, (Option.some.injEq _ _ ▸ hs).symm⟩
      · rintro ⟨st', hst', _, _, _, rfl⟩
        cases hst'
        rfl
    · constructor
      · intro hs; cases hs
      · rintro ⟨st', hst', h1, h2, h3, rfl⟩
        cases hst'
        exact absurd ⟨h1, h2, h3⟩ hcond

theorem match_flags_shape {e : Entry} {qn : List String}
    {qc : Option (List String)} {flags : List MatchFlags}
    (h : __match_matches e qn qc = some flags) : ∀ f ∈ flags, flagShape f := by
  obtain ⟨st, hst, _, _, _, rfl⟩ := __match_matches_eq_some.mp h
  exact alignLoop_flags_shape qn _ _ _ hst

theorem match_flags_length {e : Entry} {qn : List String}
    {qc : Option (List String)} {flags : List MatchFlags}
    (h : __match_matches e qn qc = some flags) : flags.length = qn.length := by
  obtain ⟨st, hst, _, hname, _, rfl⟩ := __match_matches_eq_some.mp h
  have := alignLoop_length qn _ _ _ hst
  rw [hname] at this
  simpa using this

theorem alignLoop_last_not_skipped (qn : List String) :
    ∀ (db : List Component) (qc : Option (List String)) (st : AlignState),
      alignLoop qn db qc = some st → st.restDb = [] → st.restName = [] →
      ∀ f, st.flags.getLast? = some f → f.skipped = false := by
  induction qn with
  | nil =>
    intro db qc st h _ _ f hf
    simp only [alignLoop, Option.some.injEq] at h
    subst h
    simp at hf
  | cons n ns ih =>
    intro db qc st h hdb hname f hf
    -- uniform handler for a branch that recorded a matched flag (skipped = false)
    -- and one for the loose-skip branch (the skipping component stays unconsumed)
    rcases db with _ | ⟨⟨bt, dt⟩, ds⟩
    · simp only [alignLoop, Option.some.injEq] at h
      subst h
      simp at hname
    · have handlerA : ∀ (F : MatchFlags) (db' : List Component) (qc' : Option (List String))
          (st' : AlignState), F.skipped = false →
          alignLoop ns db' qc' = some st' → pushFlag F st' = st → f.skipped = false := by
        intro F db' qc' st' hFs hst' hpush
        subst hpush
        simp only [pushFlag] at hdb hname hf
        cases hfs : st'.flags with
        | nil =>
          rw [hfs] at hf
          simp only [List.getLast?_singleton, Option.some.injEq] at hf
          subst hf
          exact hFs
        | cons g gs =>
          rw [hfs] at hf
          rw [List.getLast?_cons_cons] at hf
          rw [← hfs] at hf
          exact ih _ _ _ hst' hdb hname f hf
      have handlerB : ∀ (F : MatchFlags) (d' : Component) (qc' : Option (List String))
          (st' : AlignState),
          alignLoop ns (d' :: ds) qc' = some st' → pushFlag F st' = st → f.skipped = false := by
        intro F d' qc' st' hst' hpush
        subst hpush
        simp only [pushFlag] at hdb hname hf
        cases hfs : st'.flags with
        | nil =>
          have hlen := alignLoop_length ns _ _ _ hst'
          rw [hfs, hname] at hlen
          simp only [List.length_nil, Nat.add_zero] at hlen
          obtain rfl : ns = [] := List.length_eq_zero.mp hlen.symm
          simp only [alignLoop, Option.some.injEq] at hst'
          subst hst'
          simp at hdb
        | cons g gs =>
          rw [hfs] at hf
          rw [List.getLast?_cons_cons] at hf
          rw [← hfs] at hf
          exact ih _ _ _ hst' hdb hname f hf
      rcases qc with _ | ⟨_ | ⟨c, cs⟩⟩
      · cases dt with
        | normal nm =>
          simp only [alignLoop] at h
          split_ifs at h <;>
          first
          | (rcases Option.map_eq_some'.mp h with ⟨st', hst', hpush⟩
             first
             | exact handlerB _ _ _ _ hst' hpush
             | (refine handlerA _ _ _ _ ?_ hst' hpush
                cases bt <;> rfl))
          | exact Option.noConfusion h
        | wildcard =>
          simp only [alignLoop] at h
          rcases Option.map_eq_some'.mp h with ⟨st', hst', hpush⟩
          refine handlerA _ _ _ _ ?_ hst' hpush
          cases bt <;> rfl
      · simp only [alignLoop, Option.some.injEq] at h
        subst h
        simp at hname
      · cases dt with
        | normal nm =>
          simp only [alignLoop] at h
          split_ifs at h <;>
          first
          | (rcases Option.map_eq_some'.mp h with ⟨st', hst', hpush⟩
             first
             | exact handlerB _ _ _ _ hst' hpush
             | (refine handlerA _ _ _ _ ?_ hst' hpush
                cases bt <;> rfl))
          | exact Option.noConfusion h
        | wildcard =>
          simp only [alignLoop] at h
          rcases Option.map_eq_some'.mp h with ⟨st', hst', hpush⟩
          refine handlerA _ _ _ _ ?_ hst' hpush
          cases bt <;> rfl


/-! ### Claim theorems: alignment structure (C3, C7, C10) -/

/-- Shorthand for a component with a tight binding and a normal name. -/
def tightComp (s : String) : Component :=
  ⟨BindingType.tight, ComponentType.normal s⟩

/-- Shorthand for a component with a loose binding and a normal name. -/
def looseComp (s : String) : Component :=
  ⟨BindingType.loose, ComponentType.normal s⟩

/-- C3: the position-by-position alignment of an entry against the query
succeeds if and only if, at loop exit, both the entry components and the
query positions are fully consumed (given a class of the same length as the
name, as the callers guarantee); and a tight-bound normal component that at
the current position equals neither the query name nor the query class
aborts the alignment with failure. -/
theorem c3_alignment_success_iff_consumed :
    (∀ (e : Entry) (qn : List String) (qc : Option (List String)),
      (qc = none ∨ ∃ l, qc = some l ∧ l.length = qn.length) →
      ((__match_matches e qn qc).isSome ↔
        ∃ st, alignLoop qn e.components qc = some st ∧
          st.restDb = [] ∧ st.restName = [])) ∧
    (∀ (n : String) (ns : List String) (nm : String) (ds : List Component)
      (qc : Option (List String)),
      nm ≠ n →
      (qc = none ∨ ∃ c cs, qc = some (c :: cs) ∧ nm ≠ c) →
      alignLoop (n :: ns) (tightComp nm :: ds) qc = none) := by
  constructor
  · intro e qn qc hlen
    constructor
    · intro hs
      obtain ⟨flags, hflags⟩ := Option.isSome_iff_exists.mp hs
      obtain ⟨st, hst, h1, h2, _, _⟩ := __match_matches_eq_some.mp hflags
      exact ⟨st, hst, h1, h2⟩
    · rintro ⟨st, hst, h1, h2⟩
      have hcls : st.restClass = none ∨ st.restClass = some [] := by
        rcases hlen with rfl | ⟨l, rfl, hl⟩
        · exact Or.inl (alignLoop_class_none qn _ _ hst)
        · obtain ⟨l', hl', hlen'⟩ := alignLoop_class_some qn _ _ _ hst
          rw [h2] at hlen'
          simp only [List.length_nil, Nat.zero_add] at hlen'
          rw [hl] at hlen'
          have : l'.length = 0 := by omega
          rw [List.length_eq_zero.mp this] at hl'
          exact Or.inr hl'
      rw [Option.isSome_iff_exists]
      exact ⟨st.flags, __match_matches_eq_some.mpr ⟨st, hst, h1, h2, hcls, rfl⟩⟩
  · intro n ns nm ds qc hne hcls
    rcases hcls with rfl | ⟨c, cs, rfl, hnc⟩
    · simp [alignLoop, tightComp, hne]
    · simp [alignLoop, tightComp, hne, hnc]

/-- C3 witness: the tight entry a.b aligned against the query a.b succeeds
with everything consumed, and the tight mismatch z.b against query a.b
fails. -/
theorem c3_alignment_success_iff_consumed_witness :
    ((__match_matches ⟨[tightComp "a", tightComp "b"], "v"⟩ ["a", "b"] none).isSome ↔
      ∃ st, alignLoop ["a", "b"] [tightComp "a", tightComp "b"] none = some st ∧
        st.restDb = [] ∧ st.restName = []) ∧
    alignLoop ["a", "b"] (tightComp "z" :: [tightComp "b"]) none = none := by
  constructor
  · exact c3_alignment_success_iff_consumed.1 ⟨[tightComp "a", tightComp "b"], "v"⟩
      ["a", "b"] none (Or.inl rfl)
  · exact c3_alignment_success_iff_consumed.2 "a" ["b"] "z" [tightComp "b"] none
      (by decide) (Or.inl rfl)

/-- C7: in every successful match record, a position consumed by a loose
skip carries MF_SKIPPED and never MF_PRECEDING_LOOSE (the marker is cleared
on skipped positions), and MF_PRECEDING_LOOSE only ever sits on a position
that actually matched (by name, class or wildcard). -/
theorem c7_skipped_clears_preceding_loose :
    ∀ (e : Entry) (qn : List String) (qc : Option (List String))
      (flags : List MatchFlags),
      __match_matches e qn qc = some flags →
      ∀ f ∈ flags,
        (f.skipped = true → f.precedingLoose = false) ∧
        (f.precedingLoose = true → (f.name || f.mclass || f.wildcard) = true) := by
  intro e qn qc flags h f hf
  have hs := match_flags_shape h f hf
  rcases hs with h1 | h1 | h1 | h1 | h1 | h1 | h1 <;> subst h1 <;> exact ⟨by decide, by decide⟩

/-- C7 witness: the entry *foreground matched against the query
xterm.vt100.foreground produces a record whose positions all satisfy the
skipped / preceding-loose properties. -/
theorem c7_skipped_clears_preceding_loose_witness :
    __match_matches ⟨[looseComp "fg"], "black"⟩ ["xterm", "fg"] none =
      some [{ MatchFlags.none0 with skipped := true },
            { MatchFlags.none0 with name := true, precedingLoose := true }] ∧
    ({ MatchFlags.none0 with skipped := true } : MatchFlags).precedingLoose = false := by
  constructor
  · decide
  · exact (c7_skipped_clears_preceding_loose ⟨[looseComp "fg"], "black"⟩ ["xterm", "fg"]
      none
      [{ MatchFlags.none0 with skipped := true },
       { MatchFlags.none0 with name := true, precedingLoose := true }] (by decide)
      { MatchFlags.none0 with skipped := true } (by decide)).1 rfl

/-- C10: in every successfully aligned match record over a non-empty query,
the final position carries one of MF_NAME, MF_CLASS or MF_WILDCARD and never
MF_SKIPPED: a loose skip at the last query position leaves the skipping
component unconsumed, so such an alignment is rejected. -/
theorem c10_final_position_matched :
    ∀ (e : Entry) (qn : List String) (qc : Option (List String))
      (flags : List MatchFlags),
      __match_matches e qn qc = some flags → qn ≠ [] →
      ∃ f, flags.getLast? = some f ∧ f.skipped = false ∧
        (f.name || f.mclass || f.wildcard) = true := by
  intro e qn qc flags h hqn
  obtain ⟨st, hst, h1, h2, _, rfl⟩ := __match_matches_eq_some.mp h
  have hlen : st.flags.length = qn.length := by
    have := alignLoop_length qn _ _ _ hst
    rw [h2] at this
    simpa using this
  have hne : st.flags ≠ [] := by
    intro hc
    rw [hc] at hlen
    exact hqn (List.length_eq_zero.mp hlen.symm)
  obtain ⟨f, hf⟩ := Option.isSome_iff_exists.mp (List.getLast?_isSome.mpr hne)
  have hskip : f.skipped = false :=
    alignLoop_last_not_skipped qn _ _ _ hst h1 h2 f hf
  have hmem : f ∈ st.flags := by
    obtain ⟨hne', heq⟩ := List.mem_getLast?_eq_getLast (Option.mem_def.mpr hf)
    rw [heq]
    exact List.getLast_mem hne'
  have hs := alignLoop_flags_shape qn _ _ _ hst f hmem
  refine ⟨f, hf, hskip, ?_⟩
  rcases hs with h1 | h1 | h1 | h1 | h1 | h1 | h1 <;> subst h1 <;> first | rfl | (exact absurd hskip (by decide))

/-- C10 witness: the entry xterm*fg matched against xterm.vt100.fg ends on a
matched (NAME) position. -/
theorem c10_final_position_matched_witness :
    ∃ f, ([{ MatchFlags.none0 with name := true },
           { MatchFlags.none0 with skipped := true },
           { MatchFlags.none0 with name := true, precedingLoose := true }] :
        List MatchFlags).getLast? = some f ∧
      f.skipped = false ∧ (f.name || f.mclass || f.wildcard) = true :=
  c10_final_position_matched ⟨[tightComp "xterm", looseComp "fg"], "w"⟩
    ["xterm", "vt100", "fg"] none
    [{ MatchFlags.none0 with name := true },
     { MatchFlags.none0 with skipped := true },
     { MatchFlags.none0 with name := true, precedingLoose := true }]
    (by decide) (by decide)


/-! ### Claim theorems: precedence comparison (C1, C5, C6) -/

/-- The record cell of an exact tight name match: MF_NAME only. -/
def exactFlags : MatchFlags := { MatchFlags.none0 with name := true }

theorem favorsCandidate_self_eq_false {f : MatchFlags} (hs : flagShape f) :
    favorsCandidate f f = false := by
  rcases hs with h | h | h | h | h | h | h <;> subst h <;> decide

theorem __match_compare_self_eq_false {R : List MatchFlags}
    (hs : ∀ f ∈ R, flagShape f) : __match_compare R R = false := by
  induction R with
  | nil => rfl
  | cons f fs ih =>
    simp only [__match_compare, Bool.or_eq_false_iff]
    exact ⟨favorsCandidate_self_eq_false (hs f (List.mem_cons_self f fs)),
      ih fun g hg => hs g (List.mem_cons_of_mem f hg)⟩

/-- C1 (amended): __match_compare replaces the incumbent best exactly when
some position of the scan decides in the candidate's favour under the four
coded conditions; and rule 1 is applied in the candidate's favour only: a
candidate that matched against a skipped incumbent position wins there, but
an incumbent that matched against a skipped candidate position does not
close the comparison. -/
theorem c1_compare_decides_for_candidate_only :
    (∀ best candidate : List MatchFlags,
      __match_compare best candidate = true ↔
        ∃ (i : Nat) (b c : MatchFlags), best[i]? = some b ∧ candidate[i]? = some c ∧
          favorsCandidate b c = true) ∧
    favorsCandidate { MatchFlags.none0 with skipped := true }
      { MatchFlags.none0 with name := true } = true ∧
    favorsCandidate { MatchFlags.none0 with name := true }
      { MatchFlags.none0 with skipped := true } = false := by
  refine ⟨?_, by decide, by decide⟩
  intro best
  induction best with
  | nil =>
    intro candidate
    constructor
    · intro h
      rw [show __match_compare [] candidate = false from rfl] at h
      cases h
    · rintro ⟨i, b, c, hb, _, _⟩
      simp at hb
  | cons b bs ih =>
    intro candidate
    cases candidate with
    | nil =>
      constructor
      · intro h
        rw [show __match_compare (b :: bs) [] = false from rfl] at h
        cases h
      · rintro ⟨i, b', c', _, hc, _⟩
        simp at hc
    | cons c cs =>
      simp only [__match_compare, Bool.or_eq_true]
      constructor
      · rintro (hf | hr)
        · exact ⟨0, b, c, by simp, by simp, hf⟩
        · obtain ⟨i, b', c', hb, hc, hf⟩ := (ih cs).mp hr
          exact ⟨i + 1, b', c', by simpa using hb, by simpa using hc, hf⟩
      · rintro ⟨i, b', c', hb, hc, hf⟩
        cases i with
        | zero =>
          simp only [List.getElem?_cons_zero, Option.some.injEq] at hb hc
          subst hb; subst hc
          exact Or.inl hf
        | succ j =>
          exact Or.inr ((ih cs).mpr ⟨j, b', c',
            by simpa using hb, by simpa using hc, hf⟩)

/-- C1 counterexample: on the query a.b.c (no class) over the database
consisting of a*c (value v1) followed by *b.c (value v2), the incumbent
best a*c matches with NAME at position 0 while the later candidate *b.c is
SKIPPED at position 0, and no earlier position exists; the claim says the
incumbent must be retained, but the code lets the candidate win at position
1 (incumbent SKIPPED, candidate matched) and returns v2. -/
theorem c1_counterexample :
    __match_matches ⟨[tightComp "a", looseComp "c"], "v1"⟩ ["a", "b", "c"] none =
      some [{ MatchFlags.none0 with name := true },
            { MatchFlags.none0 with skipped := true },
            { MatchFlags.none0 with name := true, precedingLoose := true }] ∧
    __match_matches ⟨[looseComp "b", tightComp "c"], "v2"⟩ ["a", "b", "c"] none =
      some [{ MatchFlags.none0 with skipped := true },
            { MatchFlags.none0 with name := true, precedingLoose := true },
            { MatchFlags.none0 with name := true }] ∧
    xcb_xrm_match
      [⟨[tightComp "a", looseComp "c"], "v1"⟩, ⟨[looseComp "b", tightComp "c"], "v2"⟩]
      ["a", "b", "c"] none = some "v2" ∧
    ("v2" : String) ≠ "v1" := by
  refine ⟨by decide, by decide, by decide, by decide⟩

/-- C5 (amended): when a later candidate entry produces a match record equal
to the incumbent best's record, the incumbent is retained and the candidate
is discarded at that comparison. (The global first-entry-wins consequence
holds only when no intervening entry displaces the incumbent, see the
counterexample.) -/
theorem c5_equal_records_keep_incumbent :
    ∀ (qn : List String) (qc : Option (List String)) (rest : List Entry)
      (e1 e2 : Entry) (R : List MatchFlags),
      __match_matches e1 qn qc = some R →
      __match_matches e2 qn qc = some R →
      xrmMatchLoop qn qc (e2 :: rest) (some (R, e1)) =
        xrmMatchLoop qn qc rest (some (R, e1)) := by
  intro qn qc rest e1 e2 R h1 h2
  have hcmp : __match_compare R R = false :=
    __match_compare_self_eq_false (match_flags_shape h1)
  simp only [xrmMatchLoop, h2, hcmp]
  rfl

/-- C5 witness: with two entries both producing the single-position record
NAME, the incumbent survives the comparison against the duplicate. -/
theorem c5_equal_records_keep_incumbent_witness :
    xrmMatchLoop ["a"] none [⟨[tightComp "a"], "2"⟩]
      (some ([exactFlags], ⟨[tightComp "a"], "1"⟩)) =
      some ([exactFlags], ⟨[tightComp "a"], "1"⟩) := by
  have h := c5_equal_records_keep_incumbent ["a"] none []
    ⟨[tightComp "a"], "1"⟩ ⟨[tightComp "a"], "2"⟩ [exactFlags]
    (by decide) (by decide)
  simpa [xrmMatchLoop] using h

/-- C5 counterexample: in the database a*c (value 1), *b.c (value 2),
a*c (value 3) queried with a.b.c, the first and third entries produce equal
match records, yet the code returns value 3, not the first entry's value 1:
the middle entry displaces the first (rule 1 fires at position 1) and then
loses to the third (rule 1 fires at position 0). -/
theorem c5_counterexample :
    __match_matches ⟨[tightComp "a", looseComp "c"], "1"⟩ ["a", "b", "c"] none =
      some [{ MatchFlags.none0 with name := true },
            { MatchFlags.none0 with skipped := true },
            { MatchFlags.none0 with name := true, precedingLoose := true }] ∧
    __match_matches ⟨[tightComp "a", looseComp "c"], "3"⟩ ["a", "b", "c"] none =
      some [{ MatchFlags.none0 with name := true },
            { MatchFlags.none0 with skipped := true },
            { MatchFlags.none0 with name := true, precedingLoose := true }] ∧
    xcb_xrm_match
      [⟨[tightComp "a", looseComp "c"], "1"⟩, ⟨[looseComp "b", tightComp "c"], "2"⟩,
       ⟨[tightComp "a", looseComp "c"], "3"⟩]
      ["a", "b", "c"] none = some "3" ∧
    ("3" : String) ≠ "1" := by
  refine ⟨by decide, by decide, by decide, by decide⟩

/-- C6: on the database *foreground (black), xterm*foreground (white), the
query with name xterm.vt100.foreground and class XTerm.VT100.Foreground
returns white, both at the matcher level and through the string lookup with
the (spec-modelled) query parser. -/
theorem c6_tight_prefix_beats_pure_loose :
    xcb_xrm_match
      [⟨[looseComp "foreground"], "black"⟩,
       ⟨[tightComp "xterm", looseComp "foreground"], "white"⟩]
      ["xterm", "vt100", "foreground"]
      (some ["XTerm", "VT100", "Foreground"]) = some "white" ∧
    xcb_xrm_resource_get_string
      [⟨[looseComp "foreground"], "black"⟩,
       ⟨[tightComp "xterm", looseComp "foreground"], "white"⟩]
      (some "xterm.vt100.foreground") (some "XTerm.VT100.Foreground") =
      some "white" := by
  refine ⟨by decide, by decide⟩


/-! ### Claim theorems: lookup interface and conversions (C9, C8) -/

/-- C9: at the public lookup interface an empty class string behaves exactly
like an absent (NULL) class: the lookup results agree for every database and
every name argument. -/
theorem c9_empty_class_like_absent_class :
    ∀ (database : List Entry) (res_name : Option String),
      xcb_xrm_resource_get_string database res_name (some "") =
        xcb_xrm_resource_get_string database res_name none := by
  intro database res_name
  unfold xcb_xrm_resource_get_string
  split
  · rfl
  · cases res_name with
    | none => rfl
    | some sn =>
      cases xcb_xrm_entry_parse_query sn with
      | none => rfl
      | some qn => rfl

/-- C8: the boolean conversion applies its steps in the documented order
(absent value: false; numeric value: its truthiness; case-insensitive
true / on / yes: true; case-insensitive false / off / no: false; anything
else: false), and the integer conversion maps an absent value to the
LONG_MIN sentinel. -/
theorem c8_convert_steps_in_order :
    xcb_xrm_convert_to_bool none = false ∧
    (∀ (s : String) (n : Int), parseLong s = some n →
      xcb_xrm_convert_to_bool (some s) = (n != 0)) ∧
    (∀ s : String, parseLong s = none →
      (lowercase s = "true" ∨ lowercase s = "on" ∨ lowercase s = "yes") →
      xcb_xrm_convert_to_bool (some s) = true) ∧
    (∀ s : String, parseLong s = none →
      ¬(lowercase s = "true" ∨ lowercase s = "on" ∨ lowercase s = "yes") →
      (lowercase s = "false" ∨ lowercase s = "off" ∨ lowercase s = "no") →
      xcb_xrm_convert_to_bool (some s) = false) ∧
    (∀ s : String, parseLong s = none →
      ¬(lowercase s = "true" ∨ lowercase s = "on" ∨ lowercase s = "yes") →
      ¬(lowercase s = "false" ∨ lowercase s = "off" ∨ lowercase s = "no") →
      xcb_xrm_convert_to_bool (some s) = false) ∧
    xcb_xrm_convert_to_long none = LONG_MIN := by
  refine ⟨rfl, ?_, ?_, ?_, ?_, rfl⟩
  · intro s n h
    simp [xcb_xrm_convert_to_bool, h]
  · intro s h ht
    have ht' : (lowercase s = "true" || lowercase s = "on" || lowercase s = "yes") = true := by
      rcases ht with h1 | h1 | h1 <;> simp [h1]
    simp only [xcb_xrm_convert_to_bool, h]
    rcases ht with h1 | h1 | h1 <;> simp [h1]
  · intro s h _ hf
    simp only [xcb_xrm_convert_to_bool, h]
    rcases hf with h1 | h1 | h1 <;> simp [h1]
  · intro s h ht hf
    simp only [xcb_xrm_convert_to_bool, h]
    have h1 : ¬(lowercase s = "true") := fun hc => ht (Or.inl hc)
    have h2 : ¬(lowercase s = "on") := fun hc => ht (Or.inr (Or.inl hc))
    have h3 : ¬(lowercase s = "yes") := fun hc => ht (Or.inr (Or.inr hc))
    have h4 : ¬(lowercase s = "false") := fun hc => hf (Or.inl hc)
    have h5 : ¬(lowercase s = "off") := fun hc => hf (Or.inr (Or.inl hc))
    have h6 : ¬(lowercase s = "no") := fun hc => hf (Or.inr (Or.inr hc))
    simp [h1, h2, h3, h4, h5, h6]

/-- C8 witness: the ordered steps evaluated on concrete values: a numeric
string converts by truthiness, an uppercase YES converts to true, an Off
converts to false, and an unrecognised word converts to false. -/
theorem c8_convert_steps_in_order_witness :
    xcb_xrm_convert_to_bool (some "5") = true ∧
    xcb_xrm_convert_to_bool (some "0") = false ∧
    xcb_xrm_convert_to_bool (some "YES") = true ∧
    xcb_xrm_convert_to_bool (some "Off") = false ∧
    xcb_xrm_convert_to_bool (some "junk") = false := by
  refine ⟨?_, ?_, ?_, ?_, ?_⟩
  · have h := c8_convert_steps_in_order.2.1 "5" 5 (by decide)
    simpa using h
  · have h := c8_convert_steps_in_order.2.1 "0" 0 (by decide)
    simpa using h
  · have h := c8_convert_steps_in_order.2.2.1 "YES" (by decide) (by decide)
    simpa using h
  · have h := c8_convert_steps_in_order.2.2.2.1 "Off" (by decide) (by decide) (by decide)
    simpa using h
  · have h := c8_convert_steps_in_order.2.2.2.2.1 "junk" (by decide) (by decide) (by decide)
    simpa using h


/-! ### Claim theorems: lookup failure conditions (C4) -/

theorem xrmMatchLoop_some_isSome (qn : List String) (qc : Option (List String)) :
    ∀ (entries : List Entry) (bf : List MatchFlags) (be : Entry),
      ∃ p, xrmMatchLoop qn qc entries (some (bf, be)) = some p := by
  intro entries
  induction entries with
  | nil => intro bf be; exact ⟨(bf, be), rfl⟩
  | cons e rest ih =>
    intro bf be
    cases h : __match_matches e qn qc with
    | none => simpa [xrmMatchLoop, h] using ih bf be
    | some flags =>
      by_cases hc : __match_compare bf flags = true
      · simpa [xrmMatchLoop, h, hc] using ih flags e
      · simpa [xrmMatchLoop, h, hc] using ih bf be

theorem xrmMatchLoop_none_eq_none_iff (qn : List String) (qc : Option (List String)) :
    ∀ entries : List Entry,
      xrmMatchLoop qn qc entries none = none ↔
        ∀ e ∈ entries, __match_matches e qn qc = none := by
  intro entries
  induction entries with
  | nil => simp [xrmMatchLoop]
  | cons e rest ih =>
    cases h : __match_matches e qn qc with
    | none =>
      simp only [xrmMatchLoop, h]
      constructor
      · intro hl f hf
        rcases List.mem_cons.mp hf with rfl | hf'
        · exact h
        · exact (ih.mp hl) f hf'
      · intro hall
        exact ih.mpr fun f hf => hall f (List.mem_cons_of_mem e hf)
    | some flags =>
      simp only [xrmMatchLoop, h]
      constructor
      · intro hl
        obtain ⟨p, hp⟩ := xrmMatchLoop_some_isSome qn qc rest flags e
        rw [hp] at hl
        cases hl
      · intro hall
        have hcontra := hall e (List.mem_cons_self e rest)
        rw [h] at hcontra
        cases hcontra

/-- The matcher fails exactly when no database entry matches. -/
theorem xcb_xrm_match_none_iff (database : List Entry) (qn : List String)
    (qc : Option (List String)) :
    xcb_xrm_match database qn qc = none ↔
      ∀ e ∈ database, __match_matches e qn qc = none := by
  unfold xcb_xrm_match
  cases h : xrmMatchLoop qn qc database none with
  | none => simpa [h] using (xrmMatchLoop_none_eq_none_iff qn qc database).mp h
  | some p =>
    simp only []
    constructor
    · intro hc; cases hc
    · intro hall
      have := (xrmMatchLoop_none_eq_none_iff qn qc database).mpr hall
      rw [h] at this
      cases this

/-- C4 (amended): the string lookup returns absence exactly when the
database is empty, the name is absent or fails to parse, the class string is
present and non-empty and either fails to parse or parses to a different
number of components than the name, or no entry aligns against the query;
in every other case a value is returned. -/
theorem c4_lookup_absence_conditions :
    (∀ (res_name res_class : Option String),
      xcb_xrm_resource_get_string [] res_name res_class = none) ∧
    (∀ (database : List Entry) (res_class : Option String),
      xcb_xrm_resource_get_string database none res_class = none) ∧
    (∀ (database : List Entry) (sn : String) (res_class : Option String),
      xcb_xrm_entry_parse_query sn = none →
      xcb_xrm_resource_get_string database (some sn) res_class = none) ∧
    (∀ (database : List Entry) (sn sc : String),
      sc ≠ "" → xcb_xrm_entry_parse_query sc = none →
      xcb_xrm_resource_get_string database (some sn) (some sc) = none) ∧
    (∀ (database : List Entry) (sn sc : String) (qn qc : List String),
      sc ≠ "" → xcb_xrm_entry_parse_query sn = some qn →
      xcb_xrm_entry_parse_query sc = some qc → qn.length ≠ qc.length →
      xcb_xrm_resource_get_string database (some sn) (some sc) = none) ∧
    (∀ (database : List Entry) (sn : String) (qn : List String)
      (res_class : Option String),
      database ≠ [] → xcb_xrm_entry_parse_query sn = some qn →
      (res_class = none ∨ res_class = some "") →
      ((∀ e ∈ database, __match_matches e qn none = none) →
        xcb_xrm_resource_get_string database (some sn) res_class = none) ∧
      ((∃ e ∈ database, __match_matches e qn none ≠ none) →
        ∃ v, xcb_xrm_resource_get_string database (some sn) res_class = some v)) ∧
    (∀ (database : List Entry) (sn sc : String) (qn qc : List String),
      database ≠ [] → sc ≠ "" → xcb_xrm_entry_parse_query sn = some qn →
      xcb_xrm_entry_parse_query sc = some qc → qn.length = qc.length →
      ((∀ e ∈ database, __match_matches e qn (some qc) = none) →
        xcb_xrm_resource_get_string database (some sn) (some sc) = none) ∧
      ((∃ e ∈ database, __match_matches e qn (some qc) ≠ none) →
        ∃ v, xcb_xrm_resource_get_string database (some sn) (some sc) = some v)) := by
  have hempty : ∀ sc : String, sc ≠ "" → 0 < sc.length := by
    intro sc hsc
    have : sc.length ≠ 0 := fun hc => hsc (by
      cases sc with
      | mk l =>
        simp only [String.length, List.length_eq_zero] at hc
        simp [hc])
    omega
  refine ⟨?_, ?_, ?_, ?_, ?_, ?_, ?_⟩
  · intro rn rc
    simp [xcb_xrm_resource_get_string]
  · intro db rc
    simp [xcb_xrm_resource_get_string]
  · intro db sn rc hparse
    simp [xcb_xrm_resource_get_string, hparse]
  · intro db sn sc hsc hparse
    by_cases hdb : db = []
    · simp [xcb_xrm_resource_get_string, hdb]
    · cases hn : xcb_xrm_entry_parse_query sn with
      | none => simp [xcb_xrm_resource_get_string, hdb, hn]
      | some qn => simp [xcb_xrm_resource_get_string, hdb, hn, hempty sc hsc, hparse]
  · intro db sn sc qn qc hsc hn hc hlen
    by_cases hdb : db = []
    · simp [xcb_xrm_resource_get_string, hdb]
    · simp [xcb_xrm_resource_get_string, hdb, hn, hempty sc hsc, hc, hlen]
  · intro db sn qn rc hdb hn hrc
    have hred : xcb_xrm_resource_get_string db (some sn) rc =
        xcb_xrm_match db qn none := by
      rcases hrc with rfl | rfl
      · simp [xcb_xrm_resource_get_string, hdb, hn]
      · simp [xcb_xrm_resource_get_string, hdb, hn]
    constructor
    · intro hall
      rw [hred]
      exact (xcb_xrm_match_none_iff db qn none).mpr hall
    · intro hex
      rw [hred]
      cases hm : xcb_xrm_match db qn none with
      | some v => exact ⟨v, rfl⟩
      | none =>
        obtain ⟨e, he, hne⟩ := hex
        exact absurd ((xcb_xrm_match_none_iff db qn none).mp hm e he) hne
  · intro db sn sc qn qc hdb hsc hn hc hlen
    have hred : xcb_xrm_resource_get_string db (some sn) (some sc) =
        xcb_xrm_match db qn (some qc) := by
      simp [xcb_xrm_resource_get_string, hdb, hn, hempty sc hsc, hc, hlen]
    constructor
    · intro hall
      rw [hred]
      exact (xcb_xrm_match_none_iff db qn (some qc)).mpr hall
    · intro hex
      rw [hred]
      cases hm : xcb_xrm_match db qn (some qc) with
      | some v => exact ⟨v, rfl⟩
      | none =>
        obtain ⟨e, he, hne⟩ := hex
        exact absurd ((xcb_xrm_match_none_iff db qn (some qc)).mp hm e he) hne

/-- C4 counterexample: over the one-entry database a (value v), the lookup
with name a and class the unparsable string ? returns absence, yet none of
the claimed absence conditions holds: the database is non-empty, the name
parses, the class does not parse to any number of components (so no length
mismatch), and the entry does align against the query. -/
theorem c4_counterexample :
    xcb_xrm_resource_get_string [⟨[tightComp "a"], "v"⟩] (some "a") (some "?") =
      none ∧
    ([⟨[tightComp "a"], "v"⟩] : List Entry) ≠ [] ∧
    xcb_xrm_entry_parse_query "a" = some ["a"] ∧
    xcb_xrm_entry_parse_query "?" = none ∧
    __match_matches ⟨[tightComp "a"], "v"⟩ ["a"] none = some [exactFlags] := by
  refine ⟨by decide, by decide, by decide, by decide, by decide⟩

/-- C4 witness: the amended conditions applied to concrete inputs: an
unparsable non-empty class string yields absence, and a matching entry with
no class yields a value. -/
theorem c4_lookup_absence_conditions_witness :
    xcb_xrm_resource_get_string [⟨[tightComp "a"], "v"⟩] (some "a") (some ".") =
      none ∧
    (∃ v, xcb_xrm_resource_get_string [⟨[tightComp "a"], "v"⟩] (some "a") none =
      some v) := by
  constructor
  · exact c4_lookup_absence_conditions.2.2.2.1 [⟨[tightComp "a"], "v"⟩] "a" "."
      (by decide) (by decide)
  · exact (c4_lookup_absence_conditions.2.2.2.2.2.1 [⟨[tightComp "a"], "v"⟩] "a"
      ["a"] none (by decide) (by decide) (Or.inl rfl)).2
      ⟨⟨[tightComp "a"], "v"⟩, by decide, by decide⟩


/-! ### Claim theorems: the fully tight exact entry wins (C2) -/

/-- The specifier consisting of the query name components, each with a tight
binding. -/
def tightNameComponents (qn : List String) : List Component :=
  qn.map tightComp

/-- The match record of an entry that matched the query name exactly with
tight bindings everywhere: MF_NAME at every position, nothing else. -/
def exactRecord (n : Nat) : List MatchFlags :=
  List.replicate n exactFlags

theorem alignLoop_tight_self (qn : List String) :
    ∀ qc : Option (List String),
      (qc = none ∨ ∃ l, qc = some l ∧ l.length = qn.length) →
      ∃ st, alignLoop qn (tightNameComponents qn) qc = some st ∧
        st.flags = exactRecord qn.length ∧ st.restName = [] ∧ st.restDb = [] ∧
        (st.restClass = none ∨ st.restClass = some []) := by
  induction qn with
  | nil =>
    intro qc hlen
    rcases hlen with rfl | ⟨l, rfl, hl⟩
    · exact ⟨⟨[], [], [], none⟩, rfl, rfl, rfl, rfl, Or.inl rfl⟩
    · obtain rfl := List.length_eq_zero.mp hl
      exact ⟨⟨[], [], [], some []⟩, rfl, rfl, rfl, rfl, Or.inr rfl⟩
  | cons n ns ih =>
    intro qc hlen
    rcases hlen with rfl | ⟨l, rfl, hl⟩
    · obtain ⟨st', hst', hfl, hrn, hrd, hrc⟩ := ih none (Or.inl rfl)
      refine ⟨pushFlag exactFlags st', ?_, ?_, ?_, ?_, ?_⟩
      · simp only [tightNameComponents, List.map_cons, alignLoop]
        rw [show (tightComp n).type = ComponentType.normal n from rfl]
        simp only [show ((tightComp n).binding_type = BindingType.loose) = False by
          simp [tightComp], if_false, if_pos rfl]
        rw [← tightNameComponents]
        rw [hst']
        rfl
      · simp [pushFlag, hfl, exactRecord, List.replicate_succ]
      · simpa [pushFlag] using hrn
      · simpa [pushFlag] using hrd
      · simpa [pushFlag] using hrc
    · rcases l with _ | ⟨c, cs⟩
      · simp at hl
      · have hcs : cs.length = ns.length := by simpa using hl
        obtain ⟨st', hst', hfl, hrn, hrd, hrc⟩ := ih (some cs) (Or.inr ⟨cs, rfl, hcs⟩)
        refine ⟨pushFlag exactFlags st', ?_, ?_, ?_, ?_, ?_⟩
        · simp only [tightNameComponents, List.map_cons, alignLoop]
          rw [show (tightComp n).type = ComponentType.normal n from rfl]
          simp only [show ((tightComp n).binding_type = BindingType.loose) = False by
            simp [tightComp], if_false, if_pos rfl]
          rw [← tightNameComponents]
          rw [hst']
          rfl
        · simp [pushFlag, hfl, exactRecord, List.replicate_succ]
        · simpa [pushFlag] using hrn
        · simpa [pushFlag] using hrd
        · simpa [pushFlag] using hrc

theorem tight_exact_matches {qn : List String} {qc : Option (List String)}
    {e : Entry} (hcomp : e.components = tightNameComponents qn)
    (hlen : qc = none ∨ ∃ l, qc = some l ∧ l.length = qn.length) :
    __match_matches e qn qc = some (exactRecord qn.length) := by
  obtain ⟨st, hst, hfl, hrn, hrd, hrc⟩ := alignLoop_tight_self qn qc hlen
  exact __match_matches_eq_some.mpr ⟨st, by rw [hcomp]; exact hst, hrd, hrn, hrc, hfl.symm⟩

theorem alignLoop_exact_forces_tight (qn : List String) :
    ∀ (db : List Component) (qc : Option (List String)) (st : AlignState),
      alignLoop qn db qc = some st → st.flags = exactRecord qn.length →
      st.restName = [] → st.restDb = [] → db = tightNameComponents qn := by
  induction qn with
  | nil =>
    intro db qc st h _ _ hrd
    simp only [alignLoop, Option.some.injEq] at h
    subst h
    exact hrd
  | cons n ns ih =>
    intro db qc st h hfl hrn hrd
    rcases db with _ | ⟨⟨bt, dt⟩, ds⟩
    · simp only [alignLoop, Option.some.injEq] at h
      subst h
      simp at hrn
    · have hexp : exactRecord (n :: ns).length = exactFlags :: exactRecord ns.length := by
        simp [exactRecord, List.replicate_succ]
      -- a branch whose recorded flag differs from exactFlags is impossible
      have contra : ∀ (F : MatchFlags) (st' : AlignState), F ≠ exactFlags →
          pushFlag F st' = st → False := by
        intro F st' hne hpush
        subst hpush
        simp only [pushFlag] at hfl
        rw [hexp] at hfl
        exact hne (List.cons.injEq _ _ _ _ ▸ hfl).1
      -- the good branch: a tight name component matching the query name
      have good : ∀ (qc' : Option (List String)) (st' : AlignState),
          alignLoop ns ds qc' = some st' →
          pushFlag exactFlags st' = st → ds = tightNameComponents ns := by
        intro qc' st' hst' hpush
        subst hpush
        simp only [pushFlag] at hfl hrn hrd
        rw [hexp] at hfl
        exact ih _ _ _ hst' (List.cons.injEq _ _ _ _ ▸ hfl).2 hrn hrd
      rcases qc with _ | ⟨_ | ⟨c, cs⟩⟩
      · cases dt with
        | normal nm =>
          by_cases hnm : nm = n
          · cases bt
            · simp only [alignLoop, if_pos hnm] at h
              rcases Option.map_eq_some'.mp h with ⟨st', hst', hpush⟩
              have hds := good _ st' hst' hpush
              subst hnm
              simp [tightNameComponents, tightComp, hds]
            · simp only [alignLoop, if_pos hnm] at h
              rcases Option.map_eq_some'.mp h with ⟨st', hst', hpush⟩
              exact (contra _ st' (by decide) hpush).elim
          · cases bt
            · simp only [alignLoop, if_neg hnm] at h
              simp at h
            · simp only [alignLoop, if_neg hnm] at h
              simp only [show (BindingType.loose = BindingType.tight) = False by simp,
                if_false] at h
              rcases Option.map_eq_some'.mp h with ⟨st', hst', hpush⟩
              exact (contra _ st' (by decide) hpush).elim
        | wildcard =>
          cases bt <;>
            (simp only [alignLoop] at h
             rcases Option.map_eq_some'.mp h with ⟨st', hst', hpush⟩
             exact (contra _ st' (by decide) hpush).elim)
      · simp only [alignLoop, Option.some.injEq] at h
        subst h
        simp at hrn
      · cases dt with
        | normal nm =>
          by_cases hnm : nm = n
          · cases bt
            · simp only [alignLoop, if_pos hnm] at h
              rcases Option.map_eq_some'.mp h with ⟨st', hst', hpush⟩
              have hds := good _ st' hst' hpush
              subst hnm
              simp [tightNameComponents, tightComp, hds]
            · simp only [alignLoop, if_pos hnm] at h
              rcases Option.map_eq_some'.mp h with ⟨st', hst', hpush⟩
              exact (contra _ st' (by decide) hpush).elim
          · by_cases hnc : nm = c
            · cases bt <;>
                (simp only [alignLoop, if_neg hnm, if_pos hnc] at h
                 rcases Option.map_eq_some'.mp h with ⟨st', hst', hpush⟩
                 exact (contra _ st' (by decide) hpush).elim)
            · cases bt
              · simp only [alignLoop, if_neg hnm, if_neg hnc] at h
                simp at h
              · simp only [alignLoop, if_neg hnm, if_neg hnc] at h
                simp only [show (BindingType.loose = BindingType.tight) = False by simp,
                  if_false] at h
                rcases Option.map_eq_some'.mp h with ⟨st', hst', hpush⟩
                exact (contra _ st' (by decide) hpush).elim
        | wildcard =>
          cases bt <;>
            (simp only [alignLoop] at h
             rcases Option.map_eq_some'.mp h with ⟨st', hst', hpush⟩
             exact (contra _ st' (by decide) hpush).elim)

theorem favorsCandidate_exact_left (c : MatchFlags) :
    favorsCandidate exactFlags c = false := by
  simp [favorsCandidate, exactFlags, MatchFlags.none0]

theorem __match_compare_exact_best (cand : List MatchFlags) :
    ∀ k : Nat, __match_compare (exactRecord k) cand = false := by
  induction cand with
  | nil =>
    intro k
    cases k <;> rfl
  | cons c cs ih =>
    intro k
    cases k with
    | zero => rfl
    | succ m =>
      show __match_compare (exactFlags :: exactRecord m) (c :: cs) = false
      simp only [__match_compare, Bool.or_eq_false_iff]
      exact ⟨favorsCandidate_exact_left c, ih m⟩

theorem __match_compare_beats_nonexact :
    ∀ (bf : List MatchFlags) (k : Nat), bf.length = k →
      (∀ f ∈ bf, flagShape f) → bf ≠ exactRecord k →
      __match_compare bf (exactRecord k) = true := by
  intro bf
  induction bf with
  | nil =>
    intro k hk _ hne
    subst hk
    exact absurd rfl hne
  | cons b bs ih =>
    intro k hk hs hne
    cases k with
    | zero => simp at hk
    | succ m =>
      show __match_compare (b :: bs) (exactFlags :: exactRecord m) = true
      simp only [__match_compare, Bool.or_eq_true]
      by_cases hb : b = exactFlags
      · subst hb
        refine Or.inr (ih m (by simpa using hk)
          (fun f hf => hs f (List.mem_cons_of_mem _ hf)) ?_)
        intro hc
        apply hne
        rw [hc]
        rfl
      · refine Or.inl ?_
        have hsb := hs b (List.mem_cons_self b bs)
        rcases hsb with hh | hh | hh | hh | hh | hh | hh <;> subst hh <;>
          first
          | rfl
          | exact absurd rfl hb

/-- The central loop invariant: once an entry with the exact all-NAME record
is in play, the loop ends with the exact record as the best match, and (under
the uniqueness hypothesis) with the distinguished value. -/
theorem xrmMatchLoop_exact_wins (qn : List String) (qc : Option (List String))
    (V : String) :
    ∀ (entries : List Entry) (best : Option (List MatchFlags × Entry)),
      (best = none ∨ ∃ bf be, best = some (bf, be) ∧
        __match_matches be qn qc = some bf ∧
        (bf = exactRecord qn.length → be.value = V)) →
      ((∃ be, best = some (exactRecord qn.length, be)) ∨
        ∃ E ∈ entries, __match_matches E qn qc = some (exactRecord qn.length)) →
      (∀ e ∈ entries, __match_matches e qn qc = some (exactRecord qn.length) →
        e.value = V) →
      ∃ be, xrmMatchLoop qn qc entries best = some (exactRecord qn.length, be) ∧
        be.value = V := by
  intro entries
  induction entries with
  | nil =>
    intro best hinv hprog _
    rcases hprog with ⟨be, rfl⟩ | ⟨E, hE, _⟩
    · rcases hinv with h | ⟨bf, be', heq, _, hval⟩
      · cases h
      · obtain ⟨rfl, rfl⟩ : exactRecord qn.length = bf ∧ be = be' := by
          have hp := Option.some.inj heq
          exact ⟨congrArg Prod.fst hp, congrArg Prod.snd hp⟩
        exact ⟨be, rfl, hval rfl⟩
    · exact absurd hE (List.not_mem_nil E)
  | cons e rest ih =>
    intro best hinv hprog huniq
    have huniq' : ∀ f ∈ rest,
        __match_matches f qn qc = some (exactRecord qn.length) → f.value = V :=
      fun f hf hm => huniq f (List.mem_cons_of_mem e hf) hm
    cases hm : __match_matches e qn qc with
    | none =>
      simp only [xrmMatchLoop, hm]
      refine ih best hinv ?_ huniq'
      rcases hprog with hleft | ⟨E, hE, hEm⟩
      · exact Or.inl hleft
      · rcases List.mem_cons.mp hE with rfl | hE'
        · rw [hm] at hEm; cases hEm
        · exact Or.inr ⟨E, hE', hEm⟩
    | some flags =>
      have hinv_new : (some (flags, e) : Option (List MatchFlags × Entry)) = none ∨
          ∃ bf be, (some (flags, e) : Option (List MatchFlags × Entry)) = some (bf, be) ∧
            __match_matches be qn qc = some bf ∧
            (bf = exactRecord qn.length → be.value = V) := by
        refine Or.inr ⟨flags, e, rfl, hm, fun hexact => ?_⟩
        exact huniq e (List.mem_cons_self e rest) (by rw [hm, hexact])
      cases best with
      | none =>
        simp only [xrmMatchLoop, hm]
        refine ih (some (flags, e)) hinv_new ?_ huniq'
        by_cases hfe : flags = exactRecord qn.length
        · subst hfe
          exact Or.inl ⟨e, rfl⟩
        · rcases hprog with ⟨be, hc⟩ | ⟨E, hE, hEm⟩
          · cases hc
          · rcases List.mem_cons.mp hE with rfl | hE'
            · rw [hm] at hEm
              exact absurd (Option.some.injEq _ _ ▸ hEm) hfe
            · exact Or.inr ⟨E, hE', hEm⟩
      | some p =>
        obtain ⟨bf, be⟩ := p
        rcases hinv with hc | ⟨bf', be', heq, hmbe, hval⟩
        · cases hc
        · obtain ⟨rfl, rfl⟩ : bf = bf' ∧ be = be' := by
            have hp := Option.some.inj heq
            exact ⟨congrArg Prod.fst hp, congrArg Prod.snd hp⟩
          by_cases hcmp : __match_compare bf flags = true
          · simp only [xrmMatchLoop, hm, hcmp, if_true]
            refine ih (some (flags, e)) hinv_new ?_ huniq'
            by_cases hfe : flags = exactRecord qn.length
            · subst hfe
              exact Or.inl ⟨e, rfl⟩
            · rcases hprog with ⟨be0, hc⟩ | ⟨E, hE, hEm⟩
              · simp only [Option.some.injEq, Prod.mk.injEq] at hc
                obtain rfl := hc.1.symm
                rw [__match_compare_exact_best flags qn.length] at hcmp
                cases hcmp
              · rcases List.mem_cons.mp hE with rfl | hE'
                · rw [hm] at hEm
                  exact absurd (Option.some.injEq _ _ ▸ hEm) hfe
                · exact Or.inr ⟨E, hE', hEm⟩
          · simp only [xrmMatchLoop, hm, hcmp, if_false]
            refine ih (some (bf, be))
              (Or.inr ⟨bf, be, rfl, hmbe, hval⟩) ?_ huniq'
            by_cases hbfe : bf = exactRecord qn.length
            · subst hbfe
              exact Or.inl ⟨be, rfl⟩
            · rcases hprog with ⟨be0, hc⟩ | ⟨E, hE, hEm⟩
              · simp only [Option.some.injEq, Prod.mk.injEq] at hc
                exact absurd hc.1 hbfe

              · rcases List.mem_cons.mp hE with rfl | hE'
                · rw [hm] at hEm
                  have hfe : flags = exactRecord qn.length :=
                    Option.some.injEq _ _ ▸ hEm
                  subst hfe
                  have := __match_compare_beats_nonexact bf qn.length
                    (match_flags_length hmbe) (match_flags_shape hmbe) hbfe
                  exact absurd this hcmp
                · exact Or.inr ⟨E, hE', hEm⟩

/-- C2: if the database contains an entry whose bindings are all tight and
whose components equal the query name position by position, then (with a
class of matching length, and with that specifier's value unique in the
database) the matcher returns that entry's value, regardless of where the
entry sits in database order: its all-NAME record beats every record that
relies on a SKIPPED or WILDCARD (or any other non-exact) position. -/
theorem c2_tight_exact_entry_wins :
    ∀ (database : List Entry) (qn : List String) (qc : Option (List String))
      (E : Entry),
      E ∈ database →
      E.components = tightNameComponents qn →
      (qc = none ∨ ∃ l, qc = some l ∧ l.length = qn.length) →
      (∀ e ∈ database, e.components = tightNameComponents qn →
        e.value = E.value) →
      xcb_xrm_match database qn qc = some E.value := by
  intro db qn qc E hE hcomp hlen huniq
  have hEm : __match_matches E qn qc = some (exactRecord qn.length) :=
    tight_exact_matches hcomp hlen
  have huniqR : ∀ e ∈ db,
      __match_matches e qn qc = some (exactRecord qn.length) →
      e.value = E.value := by
    intro e he hm
    refine huniq e he ?_
    obtain ⟨st, hst, h1, h2, _, hflags⟩ := __match_matches_eq_some.mp hm
    exact alignLoop_exact_forces_tight qn _ _ _ hst hflags.symm h2 h1
  obtain ⟨be, hbe, hval⟩ := xrmMatchLoop_exact_wins qn qc E.value db none
    (Or.inl rfl) (Or.inr ⟨E, hE, hEm⟩) huniqR
  unfold xcb_xrm_match
  rw [hbe]
  exact congrArg some hval

/-- C2 witness: in the database *b (value bad), a.b (value good) the
all-tight exact entry a.b wins the query a.b even though it comes second. -/
theorem c2_tight_exact_entry_wins_witness :
    xcb_xrm_match
      [⟨[looseComp "b"], "bad"⟩, ⟨[tightComp "a", tightComp "b"], "good"⟩]
      ["a", "b"] none = some "good" := by
  have h := c2_tight_exact_entry_wins
    [⟨[looseComp "b"], "bad"⟩, ⟨[tightComp "a", tightComp "b"], "good"⟩]
    ["a", "b"] none ⟨[tightComp "a", tightComp "b"], "good"⟩
    (by decide) (by decide) (Or.inl rfl) (by decide)
  simpa using h

end Xrm
